import Mathlib

/-!
Verification of the DOM-to-catalog core of `main.py` against its
specification.

The script reads a rendered DOM from a text file, parses it (via
`lxml.html.fromstring`), walks every node of the tree
(`ElementTree.iter`), keeps the elements whose tag is in a fixed
allow-list, and emits one record per kept element holding its trimmed
text content, its `id`/`class` attributes, a projection of its
attributes onto an allow-listed key set, and its positional path.

The tree data model, the traversal and the positional path addressing
follow the specification's Parser / Navigator components (sections 4.1
and 4.2 of the spec): the lxml primitives used by `main.py`
(`html.fromstring`, `iter`, `itertext`, `getpath`) are third-party
code not present in this repository, so they are modelled from the
spec's words.  The pure functions of `main.py` itself
(`is_relevant_element`, `trim_text`, `extract_element_data`,
`generate_unique_filename`) are embedded directly from the source.
-/

/-- A single step of a positional path: the step addresses the
`index`-th occurrence of `tag` among same-tag siblings under one
parent, 1-based.  Spec section 3, `PathStep`. -/
structure PathStep where
  tag : String
  index : Nat
deriving Repr, DecidableEq

/-- A positional path from the root to a node: spec section 3,
`ElementPath`. -/
abbrev ElementPath := List PathStep

/-- The tree node model of spec section 3: elements carry a tag, an
ordered attribute mapping and ordered children; text and comment nodes
carry their character data. -/
inductive Node where
  | element (tag : String) (attrs : List (String × String)) (children : List Node)
  | text (value : String)
  | comment (value : String)
deriving Repr

/-- `true` exactly on `Node.element`.  Mirrors the
`isinstance(element, etree._Comment)` discrimination of `main.py`
(comments are the only non-element nodes the traversal yields). -/
def isElem : Node → Bool
  | Node.element _ _ _ => true
  | _ => false

/-- Tag of an element node (`""` on non-elements, which carry no tag
in the model). -/
def tagOf : Node → String
  | Node.element t _ _ => t
  | _ => ""

/-- `main.py` line 33: the fixed allow-list of scrape-relevant tags. -/
def relevant_tags : List String :=
  ["div", "span", "a", "p", "ul", "li", "button", "input"]

/-- `main.py` lines 32-34: `is_relevant_element`. -/
def is_relevant_element (tag : String) : Bool :=
  relevant_tags.contains tag

/-- `main.py` lines 37-38: `trim_text` — Python
`text[:max_length] + '...' if len(text) > max_length else text`
(character-based slicing and length, as in Python). -/
def trim_text (text : String) (max_length : Nat := 100) : String :=
  if text.length > max_length then String.mk (text.data.take max_length) ++ "..." else text

/-- Number of element children with tag `t` in a sibling list: the
per-parent, per-tag counter of spec section 4.2. -/
def countTag (t : String) : List Node → Nat
  | [] => 0
  | Node.element t2 _ _ :: rest => (if t2 = t then 1 else 0) + countTag t rest
  | _ :: rest => countTag t rest

/-- Number of comment children in a sibling list (comments are
addressed by their own per-parent counter, like lxml's
`comment()[n]` path steps). -/
def countComments : List Node → Nat
  | [] => 0
  | Node.comment _ :: rest => 1 + countComments rest
  | _ :: rest => countComments rest

/-- The path step a child receives, given the list `seen` of its
preceding siblings: spec section 4.2, "per-parent counters keyed by
child tag name, incremented as each same-tag child is first visited".
Text nodes are not yielded by the traversal and receive no step. -/
def stepFor (seen : List Node) : Node → Option PathStep
  | Node.element t _ _ => some ⟨t, countTag t seen + 1⟩
  | Node.comment _ => some ⟨"comment()", countComments seen + 1⟩
  | Node.text _ => none

/-- Steps of all children of one parent, in order; `seen` accumulates
the earlier siblings. -/
def childSteps (seen : List Node) : List Node → List (Option PathStep)
  | [] => []
  | c :: rest => stepFor seen c :: childSteps (seen ++ [c]) rest

/-- Combine per-child relative traversals with per-child steps: each
entry of child `i`'s traversal gets child `i`'s step prepended to its
path.  Text children (step `none`) contribute nothing. -/
def consSteps : List (Option PathStep) → List (List (Node × ElementPath)) → List (Node × ElementPath)
  | some s :: ss, l :: ls => l.map (fun dq => (dq.1, s :: dq.2)) ++ consSteps ss ls
  | none :: ss, _ :: ls => consSteps ss ls
  | _, _ => []

/-- Pre-order traversal of a subtree, yielding each element and
comment node paired with its path relative to the subtree's root (the
root itself gets `[]`).  Spec section 4.2: depth-first pre-order, a
node before its children, children in document order. -/
def sub (n : Node) : List (Node × ElementPath) :=
  match n with
  | Node.text _ => []
  | Node.comment v => [(Node.comment v, [])]
  | Node.element t a cs =>
      (Node.element t a cs, []) ::
        consSteps (childSteps [] cs) (cs.attach.map (fun c => sub c.1))
termination_by sizeOf n
decreasing_by
  have := List.sizeOf_lt_of_mem c.2
  simp
  omega

/-- Relative traversal of a sibling list under one parent, with `seen`
the earlier siblings (the unfolding of `sub` on an element node). -/
def subChildren (seen cs : List Node) : List (Node × ElementPath) :=
  consSteps (childSteps seen cs) (cs.map sub)

/-- Spec section 4.2 `traverse` (named `traverseDom` here to avoid clashing with the library function of that name): depth-first pre-order traversal from
the root, each yielded node paired with its absolute `ElementPath`.
The root's path is the single step `⟨root.tag, 1⟩`.  The parser always
returns an element root; on non-element roots (never produced) the
traversal is empty. -/
def traverseDom (root : Node) : List (Node × ElementPath) :=
  match root with
  | Node.element t _ _ => (sub root).map (fun dq => (dq.1, (⟨t, 1⟩ : PathStep) :: dq.2))
  | _ => []

/-- Concatenated text content of a node and all its descendants, in
document order: the model of lxml's `''.join(element.itertext())`
(`main.py` line 47); comment character data is not text content. -/
def itertext (n : Node) : List Char :=
  match n with
  | Node.text v => v.data
  | Node.comment _ => []
  | Node.element _ _ cs => (cs.attach.map (fun c => itertext c.1)).flatten
termination_by sizeOf n
decreasing_by
  have := List.sizeOf_lt_of_mem c.2
  simp
  omega

/-- Python `str.strip()`: drop leading and trailing whitespace. -/
def pyStrip (cs : List Char) : List Char :=
  ((cs.dropWhile Char.isWhitespace).reverse.dropWhile Char.isWhitespace).reverse

/-- The trimmed text content of an element:
`''.join(element.itertext()).strip()` of `main.py` line 47. -/
def strippedText (n : Node) : String :=
  String.mk (pyStrip (itertext n))

/-- `main.py` line 50: the attribute allow-list `{id, class, name, href}`. -/
def attr_allowlist : List String := ["id", "class", "name", "href"]

/-- The output unit built per kept element by `main.py` lines 46-52
(`element_dict`).  `classAttr` embeds the record's `"class"` key
(`class` is reserved in Lean); `xpath` holds the spec's `ElementPath`
in place of lxml's serialized path string. -/
structure ElementRecord where
  content : String
  id : Option String
  classAttr : Option String
  attributes : List (String × String)
  xpath : ElementPath
deriving Repr, DecidableEq

/-- The `element_dict` literal of `main.py` lines 46-52: trimmed and
truncated text content, `element.get('id')` / `element.get('class')`
(`none` when absent), the attribute mapping filtered to the allow-list
(order preserved), and the element's path. -/
def elementDict (dq : Node × ElementPath) : ElementRecord :=
  match dq.1 with
  | Node.element t attrs cs =>
      { content := trim_text (strippedText (Node.element t attrs cs)),
        id := List.lookup "id" attrs,
        classAttr := List.lookup "class" attrs,
        attributes := attrs.filter (fun kv => attr_allowlist.contains kv.1),
        xpath := dq.2 }
  | _ =>
      { content := "", id := none, classAttr := none, attributes := [], xpath := dq.2 }

/-- The complement of the `continue` guard of `main.py` line 44: a
yielded node produces a record iff it is an element (not a comment)
whose tag is relevant.  Text nodes are never yielded by `iter`. -/
def keepNode : Node → Bool
  | Node.comment _ => false
  | Node.element t _ _ => is_relevant_element t
  | Node.text _ => false

/-- `main.py` lines 41-54: `extract_element_data` — iterate over all
yielded nodes, skip comments and non-relevant tags, append one record
per kept element. -/
def extract_element_data (dom_tree : Node) : List ElementRecord :=
  (traverseDom dom_tree).foldl
    (fun elements_data dq =>
      if keepNode dq.1 then elements_data ++ [elementDict dq] else elements_data) []

/-! ### The tolerant markup parser (spec section 4.1)

Modelled from the spec: `main.py` delegates parsing to
`lxml.html.fromstring` (line 27), which is third-party code not in
this repository; the spec's section 4.1 describes the from-scratch
replacement.  The definitions below follow its words: lower-cased tag
and attribute names, attribute values preserved verbatim beyond entity
decoding, a pending-open-tags stack where an end tag closes the
innermost matching start tag and implicitly closes unmatched open tags
nested above it, stray end tags dropped, unknown entities kept
literally, `<!-- ... -->` as comment nodes, remaining character data
as text nodes with adjacent runs concatenated, an explicit void-tag
set whose elements close immediately, and recovery (never failure) on
every input — unclosed tags are auto-closed at end of input. -/

/-- The explicit void-element set of spec section 4.1. -/
def void_tags : List String :=
  ["area", "base", "br", "col", "embed", "hr", "img", "input",
   "link", "meta", "param", "source", "track", "wbr"]

/-- The named character entities the parser decodes; anything else is
kept literally (spec: "treat unknown entities literally"). -/
def entity_map : List (String × String) :=
  [("amp", "&"), ("lt", "<"), ("gt", ">"), ("quot", "\""), ("apos", "\x27")]

/-- Characters allowed in tag and attribute names. -/
def isNameChar (c : Char) : Bool :=
  c.isAlphanum || c = '-' || c = '_' || c = ':'

/-- Lower-case a name, as the spec requires for tag and attribute
names. -/
def lowerStr (cs : List Char) : String :=
  String.mk (cs.map Char.toLower)

/-- Decode the known character entities of a text run; unknown
entities and stray `&` are kept literally.  The fuel is always called
with more than the length of the input and never runs out. -/
def decodeEntities : Nat → List Char → List Char
  | 0, cs => cs
  | _ + 1, [] => []
  | fuel + 1, c :: rest =>
    if c = '&' then
      let nm := rest.takeWhile (fun d => d.isAlphanum || d = '#')
      match rest.drop nm.length, List.lookup (String.mk nm) entity_map with
      | ';' :: rest3, some repl => repl.data ++ decodeEntities fuel rest3
      | _, _ => '&' :: decodeEntities fuel rest
    else c :: decodeEntities fuel rest

/-- `true` when `pre` occurs at the start of `cs`. -/
def looksAt : List Char → List Char → Bool
  | [], _ => true
  | _ :: _, [] => false
  | p :: ps, c :: rest => p = c && looksAt ps rest

/-- Split a comment body from the input: everything up to the first
`-->` (or all of it, when the comment is unterminated — recovery, not
failure). -/
def splitComment : List Char → List Char × List Char
  | [] => ([], [])
  | c :: rest =>
    if looksAt ['-', '-', '>'] (c :: rest) then ([], rest.drop 2)
    else
      let (b, r) := splitComment rest
      (c :: b, r)

/-- A still-open element on the parser's pending-open-tags stack. -/
structure Frame where
  tag : String
  attrs : List (String × String)
  children : List Node

/-- Parser state: the stack of open elements (innermost first) and the
already-completed top-level nodes. -/
structure PState where
  stack : List Frame
  top : List Node

/-- Append a text run to a child list, concatenating adjacent text
runs (spec: "treat any remaining character data as Text nodes,
concatenating adjacent runs"). -/
def pushText (children : List Node) (txt : String) : List Node :=
  match children.getLast? with
  | some (Node.text v) => children.dropLast ++ [Node.text (v ++ txt)]
  | _ => children ++ [Node.text txt]

/-- Add a completed node as the last child of the innermost open
element (or at top level when no element is open). -/
def addNode (s : PState) (n : Node) : PState :=
  match s.stack with
  | [] => { s with top := s.top ++ [n] }
  | f :: rest => { s with stack := { f with children := f.children ++ [n] } :: rest }

/-- Add a (non-empty) text run to the current container. -/
def addText (s : PState) (txt : String) : PState :=
  if txt.isEmpty then s
  else
    match s.stack with
    | [] => { s with top := pushText s.top txt }
    | f :: rest => { s with stack := { f with children := pushText f.children txt } :: rest }

/-- Close the innermost open element, attaching it to its parent. -/
def popFrame (s : PState) : PState :=
  match s.stack with
  | [] => s
  | f :: rest => addNode { s with stack := rest } (Node.element f.tag f.attrs f.children)

/-- Pop open elements until one with tag `t` has been popped
(implicitly closing unmatched open tags nested above it).  The fuel is
called with the stack length. -/
def closeLoop : Nat → String → PState → PState
  | 0, _, s => s
  | fuel + 1, t, s =>
    match s.stack with
    | [] => s
    | f :: _ => if f.tag = t then popFrame s else closeLoop fuel t (popFrame s)

/-- Handle an end tag: close the innermost still-open matching start
tag, or drop the end tag when nothing matches (spec: "drop stray
closing tags"). -/
def closeTag (t : String) (s : PState) : PState :=
  if s.stack.any (fun f => f.tag = t) then closeLoop s.stack.length t s else s

/-- Auto-close every still-open element at end of input (recovery for
unclosed tags).  The fuel is called with the stack length. -/
def closeAll : Nat → PState → PState
  | 0, s => s
  | fuel + 1, s =>
    match s.stack with
    | [] => s
    | _ :: _ => closeAll fuel (popFrame s)

/-- Record an attribute, keeping the first occurrence of a duplicated
name (the attribute mapping has unique keys). -/
def addAttr (acc : List (String × String)) (k v : String) : List (String × String) :=
  if acc.any (fun kv => kv.1 = k) then acc else acc ++ [(k, v)]

/-- Parse the attribute list of a start tag up to `>` or `/>`:
whitespace-separated `name`, `name=value`, quoted or unquoted values,
names lower-cased, values kept verbatim beyond entity decoding.
Returns the attributes, whether the tag was self-closing, and the
remaining input.  The fuel is always called with more than the length
of the input. -/
def parseAttrs : Nat → List Char → List (String × String) → List (String × String) × Bool × List Char
  | 0, cs, acc => (acc, false, cs)
  | fuel + 1, cs, acc =>
    match cs.dropWhile Char.isWhitespace with
    | [] => (acc, false, [])
    | '>' :: rest => (acc, false, rest)
    | '/' :: '>' :: rest => (acc, true, rest)
    | '/' :: rest => parseAttrs fuel rest acc
    | c :: rest =>
      let nm := (c :: rest).takeWhile
        (fun d => !(d.isWhitespace || d = '=' || d = '>' || d = '/'))
      if nm.isEmpty then parseAttrs fuel rest acc
      else
        match ((c :: rest).drop nm.length).dropWhile Char.isWhitespace with
        | '=' :: r2 =>
          match r2.dropWhile Char.isWhitespace with
          | '"' :: r4 =>
            let v := r4.takeWhile (fun d => d ≠ '"')
            parseAttrs fuel ((r4.drop v.length).drop 1)
              (addAttr acc (lowerStr nm) (String.mk (decodeEntities (v.length + 1) v)))
          | '\x27' :: r4 =>
            let v := r4.takeWhile (fun d => d ≠ '\x27')
            parseAttrs fuel ((r4.drop v.length).drop 1)
              (addAttr acc (lowerStr nm) (String.mk (decodeEntities (v.length + 1) v)))
          | r3 =>
            let v := r3.takeWhile (fun d => !(d.isWhitespace || d = '>'))
            parseAttrs fuel (r3.drop v.length)
              (addAttr acc (lowerStr nm) (String.mk (decodeEntities (v.length + 1) v)))
        | r2 => parseAttrs fuel r2 (addAttr acc (lowerStr nm) "")

/-- One pass over the input: start tags push a frame (void or
self-closing tags close immediately), end tags close via the stack,
comments and text runs are attached to the current container.  The
fuel is always called with more than the length of the input; every
step consumes at least one character. -/
def parseLoop : Nat → List Char → PState → PState
  | 0, _, s => s
  | _ + 1, [], s => s
  | fuel + 1, c :: rest, s =>
    if c = '<' then
      if looksAt ['!', '-', '-'] rest then
        let (body, r2) := splitComment (rest.drop 3)
        parseLoop fuel r2 (addNode s (Node.comment (String.mk body)))
      else
        match rest with
        | '/' :: r2 =>
          let nm := r2.takeWhile isNameChar
          let r4 := ((r2.drop nm.length).dropWhile (fun d => d ≠ '>')).drop 1
          if nm.isEmpty then parseLoop fuel r4 s
          else parseLoop fuel r4 (closeTag (lowerStr nm) s)
        | d :: _ =>
          if d.isAlpha then
            let nm := rest.takeWhile isNameChar
            let (attrs, selfClose, r3) := parseAttrs (rest.length + 1) (rest.drop nm.length) []
            let t := lowerStr nm
            if selfClose || void_tags.contains t then
              parseLoop fuel r3 (addNode s (Node.element t attrs []))
            else
              parseLoop fuel r3 { s with stack := ⟨t, attrs, []⟩ :: s.stack }
          else
            parseLoop fuel rest (addText s "<")
        | [] => addText s "<"
    else
      let run := (c :: rest).takeWhile (fun d => d ≠ '<')
      parseLoop fuel ((c :: rest).drop run.length)
        (addText s (String.mk (decodeEntities (run.length + 1) run)))

/-- `main.py` lines 26-29 `parse_dom`, with the parsing itself
modelled from spec section 4.1: total on every input (recovery rules
instead of errors), returning the single root element.  When the
top level does not consist of exactly one element, the top-level nodes
are wrapped in a synthetic `html` element, as permissive consumer
parsers do (the spec requires exactly one root element). -/
def parse_dom (dom_content : String) : Node :=
  let s1 := parseLoop (dom_content.length + 1) dom_content.data ⟨[], []⟩
  let s2 := closeAll s1.stack.length s1
  match s2.top with
  | [Node.element t a c] => Node.element t a c
  | tops => Node.element "html" [] tops

/-! ### The output-filename chooser (`main.py` lines 65-74)

`os.path.exists` consults the filesystem; it is modelled by
membership in a finite list `fs` of the paths existing when
`generate_unique_filename` runs.  `os.path.splitext` is modelled for
its common case: the base name is everything before the last dot (the
whole path when there is no dot). -/

/-- Model of `os.path.splitext(file_path)[0]`: the path with its last
extension removed. -/
def splitextBase (cs : List Char) : List Char :=
  if cs.contains '.' then ((cs.reverse.dropWhile (fun d => d ≠ '.')).drop 1).reverse else cs

/-- The `while os.path.exists(new_file_path)` loop of `main.py` lines
70-72: try `{base}_{counter}.{extension}` for `counter = 1, 2, ...`
until the candidate does not exist.  The fuel (`fs.length + 1`
candidates) models the unbounded Python loop over the finite
filesystem. -/
def genLoop (fs : List String) (base ext : String) : Nat → Nat → Option String
  | 0, _ => none
  | fuel + 1, counter =>
    let new_file_path := base ++ "_" ++ toString counter ++ "." ++ ext
    if fs.contains new_file_path then genLoop fs base ext fuel (counter + 1)
    else some new_file_path

/-- `main.py` lines 65-74: `generate_unique_filename`. -/
def generate_unique_filename (fs : List String) (file_path extension : String) : Option String :=
  genLoop fs (String.mk (splitextBase file_path.data)) extension (fs.length + 1) 1

/-! ### Equation lemmas for the well-founded traversal definitions -/

theorem sub_text (v : String) : sub (Node.text v) = [] := by
  simp [sub]

theorem sub_comment (v : String) : sub (Node.comment v) = [(Node.comment v, [])] := by
  simp [sub]

theorem sub_elem (t : String) (a : List (String × String)) (cs : List Node) :
    sub (Node.element t a cs) = (Node.element t a cs, []) :: subChildren [] cs := by
  rw [sub, subChildren]
  congr 1
  congr 1
  rw [← List.attach_map_coe cs sub]

theorem itertext_text (v : String) : itertext (Node.text v) = v.data := by
  simp [itertext]

theorem itertext_comment (v : String) : itertext (Node.comment v) = [] := by
  simp [itertext]

theorem itertext_elem (t : String) (a : List (String × String)) (cs : List Node) :
    itertext (Node.element t a cs) = (cs.map itertext).flatten := by
  rw [itertext]
  congr 1
  rw [← List.attach_map_coe cs itertext]

/-- Subtree induction for the nested `Node` inductive. -/
theorem node_ind (P : Node → Prop)
    (htext : ∀ v, P (Node.text v)) (hcomment : ∀ v, P (Node.comment v))
    (helem : ∀ t a cs, (∀ c ∈ cs, P c) → P (Node.element t a cs)) : ∀ n, P n := by
  have key : ∀ k n, sizeOf n ≤ k → P n := by
    intro k
    induction k with
    | zero =>
      intro n hn
      exfalso
      cases n <;> simp at hn
    | succ k ih =>
      intro n hn
      cases n with
      | text v => exact htext v
      | comment v => exact hcomment v
      | element t a cs =>
        refine helem t a cs (fun c hc => ih c ?_)
        have h4 := List.sizeOf_lt_of_mem hc
        simp at hn
        omega
  exact fun n => key (sizeOf n) n le_rfl

/-! ### Unfoldings of `subChildren` -/

theorem subChildren_nil (seen : List Node) : subChildren seen [] = [] := rfl

theorem subChildren_cons_text (seen : List Node) (v : String) (cs : List Node) :
    subChildren seen (Node.text v :: cs) = subChildren (seen ++ [Node.text v]) cs := by
  simp [subChildren, childSteps, stepFor, consSteps, sub_text]

theorem subChildren_cons_comment (seen : List Node) (v : String) (cs : List Node) :
    subChildren seen (Node.comment v :: cs) =
      (Node.comment v, [(⟨"comment()", countComments seen + 1⟩ : PathStep)]) ::
        subChildren (seen ++ [Node.comment v]) cs := by
  simp [subChildren, childSteps, stepFor, consSteps, sub_comment]

theorem subChildren_cons_elem (seen : List Node) (t : String) (a : List (String × String))
    (cc cs : List Node) :
    subChildren seen (Node.element t a cc :: cs) =
      (sub (Node.element t a cc)).map
          (fun dq => (dq.1, (⟨t, countTag t seen + 1⟩ : PathStep) :: dq.2)) ++
        subChildren (seen ++ [Node.element t a cc]) cs := by
  simp [subChildren, childSteps, stepFor, consSteps]

/-! ### Counter arithmetic -/

theorem countTag_append (t : String) (l1 l2 : List Node) :
    countTag t (l1 ++ l2) = countTag t l1 + countTag t l2 := by
  induction l1 with
  | nil => simp [countTag]
  | cons c rest ih => cases c <;> simp +arith [countTag, ih]

theorem countComments_append (l1 l2 : List Node) :
    countComments (l1 ++ l2) = countComments l1 + countComments l2 := by
  induction l1 with
  | nil => simp [countComments]
  | cons c rest ih => cases c <;> simp +arith [countComments, ih]

/-! ### Membership in the relative traversal -/

/-- An entry of a child's relative traversal appears in the parent's
children traversal with the child's step prepended. -/
theorem subChildren_lift (cs : List Node) : ∀ (seen : List Node) (i : Nat) (hi : i < cs.length)
    (d : Node) (r : ElementPath) (s : PathStep),
    (d, r) ∈ sub (cs.get ⟨i, hi⟩) → stepFor (seen ++ cs.take i) (cs.get ⟨i, hi⟩) = some s →
    (d, s :: r) ∈ subChildren seen cs := by
  induction cs with
  | nil => intro seen i hi; exact absurd hi (by simp)
  | cons c rest ih =>
    intro seen i hi d r s hmem hstep
    cases i with
    | zero =>
      simp at hmem
      simp [List.take] at hstep
      cases c with
      | text v => simp [sub_text] at hmem
      | comment v =>
        simp [stepFor] at hstep
        simp [sub_comment] at hmem
        rw [subChildren_cons_comment]
        simp [hmem, ← hstep]
      | element t a cc =>
        simp [stepFor] at hstep
        rw [subChildren_cons_elem]
        refine List.mem_append_left _ ?_
        rw [← hstep]
        exact List.mem_map_of_mem _ hmem
    | succ j =>
      simp at hmem
      have hj : j < rest.length := by simpa using hi
      have hstep2 : stepFor ((seen ++ [c]) ++ rest.take j) (rest.get ⟨j, hj⟩) = some s := by
        simpa [List.take, List.append_assoc] using hstep
      have hrec := ih (seen ++ [c]) j hj d r s (by simpa using hmem) hstep2
      cases c with
      | text v => rw [subChildren_cons_text]; exact hrec
      | comment v => rw [subChildren_cons_comment]; exact List.mem_cons_of_mem _ hrec
      | element t a cc => rw [subChildren_cons_elem]; exact List.mem_append_right _ hrec

/-- Decomposition of membership in a children traversal: each entry
comes from a definite child position, with that child's step as the
head of its path. -/
theorem subChildren_split (cs : List Node) : ∀ (seen : List Node) (d : Node) (q : ElementPath),
    (d, q) ∈ subChildren seen cs →
    ∃ (i : Nat) (hi : i < cs.length) (s : PathStep) (r : ElementPath),
      (d, r) ∈ sub (cs.get ⟨i, hi⟩) ∧
      stepFor (seen ++ cs.take i) (cs.get ⟨i, hi⟩) = some s ∧ q = s :: r := by
  induction cs with
  | nil => intro seen d q h; simp [subChildren_nil] at h
  | cons c rest ih =>
    intro seen d q h
    have htail : (d, q) ∈ subChildren (seen ++ [c]) rest →
        ∃ (i : Nat) (hi : i < (c :: rest).length) (s : PathStep) (r : ElementPath),
          (d, r) ∈ sub ((c :: rest).get ⟨i, hi⟩) ∧
          stepFor (seen ++ (c :: rest).take i) ((c :: rest).get ⟨i, hi⟩) = some s ∧
          q = s :: r := by
      intro h2
      rcases ih (seen ++ [c]) d q h2 with ⟨i, hi, s, r, hmem, hstep, hq⟩
      exact ⟨i + 1, by simpa using Nat.succ_lt_succ hi, s, r, by simpa using hmem,
        by simpa [List.take, List.append_assoc] using hstep, hq⟩
    cases c with
    | text v =>
      rw [subChildren_cons_text] at h
      exact htail h
    | comment v =>
      rw [subChildren_cons_comment] at h
      rcases List.mem_cons.mp h with h1 | h2
      · simp only [Prod.mk.injEq] at h1
        obtain ⟨rfl, rfl⟩ := h1
        exact ⟨0, by simp, ⟨"comment()", countComments seen + 1⟩, [],
          by simp [sub_comment], by simp [List.take, stepFor], rfl⟩
      · exact htail h2
    | element t a cc =>
      rw [subChildren_cons_elem] at h
      rcases List.mem_append.mp h with h1 | h2
      · rcases List.mem_map.mp h1 with ⟨⟨d2, r⟩, hdr, heq⟩
        simp only [Prod.mk.injEq] at heq
        obtain ⟨rfl, rfl⟩ := heq
        exact ⟨0, by simp, ⟨t, countTag t seen + 1⟩, r, by simpa using hdr,
          by simp [List.take, stepFor], rfl⟩
      · exact htail h2

/-- Subtree transitivity: an entry of a descendant's relative
traversal appears in the ancestor's relative traversal with the paths
concatenated. -/
theorem sub_trans : ∀ (n : Node), ∀ (m : Node) (q : ElementPath) (d : Node) (r : ElementPath),
    (m, q) ∈ sub n → (d, r) ∈ sub m → (d, q ++ r) ∈ sub n := by
  refine node_ind _ ?_ ?_ ?_
  · intro v m q d r hm
    simp [sub_text] at hm
  · intro v m q d r hm hd
    simp [sub_comment] at hm
    obtain ⟨rfl, rfl⟩ := hm
    simpa [sub_comment] using hd
  · intro t a cs ih m q d r hm hd
    rw [sub_elem] at hm
    rcases List.mem_cons.mp hm with h1 | h2
    · simp only [Prod.mk.injEq] at h1
      obtain ⟨rfl, rfl⟩ := h1
      rw [sub_elem]
      simpa [sub_elem] using hd
    · rcases subChildren_split cs [] m q h2 with ⟨i, hi, s, q2, hmem, hstep, rfl⟩
      have hc : cs.get ⟨i, hi⟩ ∈ cs := List.get_mem cs i hi
      have hdesc := ih _ hc m q2 d r hmem hd
      rw [sub_elem]
      exact List.mem_cons_of_mem _ (subChildren_lift cs [] i hi d (q2 ++ r) s hdesc hstep)

/-- Every element entry of a relative traversal is either the subtree
root itself (path `[]`) or a direct child of another yielded element,
its path obtained from the parent's by appending one step whose tag is
the child's tag and whose index is one more than the number of
same-tag preceding element siblings. -/
theorem sub_parent_split : ∀ (n : Node), ∀ (m : Node) (q : ElementPath),
    (m, q) ∈ sub n → isElem m = true →
    (m = n ∧ q = []) ∨
    (∃ (pt : String) (pa : List (String × String)) (pcs : List Node) (pp : ElementPath),
      (Node.element pt pa pcs, pp) ∈ sub n ∧
      ∃ (i : Nat) (hi : i < pcs.length), pcs.get ⟨i, hi⟩ = m ∧
        q = pp ++ [⟨tagOf m, countTag (tagOf m) (pcs.take i) + 1⟩]) := by
  refine node_ind _ ?_ ?_ ?_
  · intro v m q hm
    simp [sub_text] at hm
  · intro v m q hm helem
    simp [sub_comment] at hm
    obtain ⟨rfl, rfl⟩ := hm
    simp [isElem] at helem
  · intro t a cs ih m q hm helem
    rw [sub_elem] at hm
    rcases List.mem_cons.mp hm with h1 | h2
    · simp only [Prod.mk.injEq] at h1
      exact Or.inl ⟨h1.1, h1.2⟩
    · rcases subChildren_split cs [] m q h2 with ⟨i, hi, s, r, hmem, hstep, rfl⟩
      have hc : cs.get ⟨i, hi⟩ ∈ cs := List.get_mem cs i hi
      rcases ih _ hc m r hmem helem with ⟨rfl, rfl⟩ | ⟨pt, pa, pcs, pp, hpar, j, hj, hch, rfl⟩
      · refine Or.inr ⟨t, a, cs, [], by rw [sub_elem]; exact List.mem_cons_self _ _,
          i, hi, rfl, ?_⟩
        cases hcase : cs.get ⟨i, hi⟩ with
        | text v => rw [hcase] at helem; simp [isElem] at helem
        | comment v => rw [hcase] at helem; simp [isElem] at helem
        | element t3 a3 c3 =>
          rw [hcase] at hstep
          simp [stepFor] at hstep
          simp [← hstep, hcase, tagOf]
      · refine Or.inr ⟨pt, pa, pcs, s :: pp, ?_, j, hj, hch, by simp⟩
        rw [sub_elem]
        exact List.mem_cons_of_mem _ (subChildren_lift cs [] i hi _ pp s hpar hstep)

/-- The paths of the element entries of a traversal fragment, in
yield order. -/
def elemPaths (l : List (Node × ElementPath)) : List ElementPath :=
  l.filterMap (fun dq => if isElem dq.1 then some dq.2 else none)

theorem elemPaths_append (l1 l2 : List (Node × ElementPath)) :
    elemPaths (l1 ++ l2) = elemPaths l1 ++ elemPaths l2 := by
  simp [elemPaths]

theorem elemPaths_map_cons (s : PathStep) (l : List (Node × ElementPath)) :
    elemPaths (l.map (fun dq => (dq.1, s :: dq.2))) = (elemPaths l).map (fun q => s :: q) := by
  induction l with
  | nil => rfl
  | cons x rest ih =>
    cases hx : isElem x.1 <;> simp [elemPaths, hx] at ih ⊢ <;> exact ih

theorem mem_elemPaths (q : ElementPath) (l : List (Node × ElementPath)) :
    q ∈ elemPaths l ↔ ∃ m, (m, q) ∈ l ∧ isElem m = true := by
  simp only [elemPaths, List.mem_filterMap]
  constructor
  · rintro ⟨⟨m, q2⟩, hmem, hopt⟩
    by_cases hm : isElem m = true
    · simp [hm] at hopt
      exact ⟨m, by rwa [hopt] at hmem, hm⟩
    · simp [Bool.of_not_eq_true hm] at hopt
  · rintro ⟨m, hmem, hm⟩
    exact ⟨(m, q), hmem, by simp [hm]⟩

theorem countTag_text (t v : String) : countTag t [Node.text v] = 0 := rfl

theorem countTag_comment (t v : String) : countTag t [Node.comment v] = 0 := rfl

theorem countTag_elem (t t2 : String) (a : List (String × String)) (cc : List Node) :
    countTag t [Node.element t2 a cc] = if t2 = t then 1 else 0 := by
  simp [countTag]

theorem elemPaths_cons (x : Node × ElementPath) (l : List (Node × ElementPath)) :
    elemPaths (x :: l) = if isElem x.1 then x.2 :: elemPaths l else elemPaths l := by
  cases hx : isElem x.1 <;> simp [elemPaths, List.filterMap_cons, hx]

/-- Every element path contributed by a children traversal starts with
a step whose index exceeds the same-tag counter over the already-seen
siblings. -/
theorem subChildren_elem_head (cs : List Node) : ∀ (seen : List Node) (q : ElementPath),
    q ∈ elemPaths (subChildren seen cs) →
    ∃ (s : PathStep) (r : ElementPath), q = s :: r ∧ countTag s.tag seen < s.index := by
  induction cs with
  | nil => intro seen q h; simp [subChildren_nil, elemPaths] at h
  | cons c rest ih =>
    intro seen q h
    cases c with
    | text v =>
      rw [subChildren_cons_text] at h
      rcases ih (seen ++ [Node.text v]) q h with ⟨s, r, rfl, hlt⟩
      refine ⟨s, r, rfl, ?_⟩
      rwa [countTag_append, countTag_text, Nat.add_zero] at hlt
    | comment v =>
      rw [subChildren_cons_comment, elemPaths_cons] at h
      simp only [isElem, if_neg Bool.false_ne_true] at h
      rcases ih (seen ++ [Node.comment v]) q h with ⟨s, r, rfl, hlt⟩
      refine ⟨s, r, rfl, ?_⟩
      rwa [countTag_append, countTag_comment, Nat.add_zero] at hlt
    | element t a cc =>
      rw [subChildren_cons_elem, elemPaths_append] at h
      rcases List.mem_append.mp h with h1 | h2
      · rw [elemPaths_map_cons] at h1
        rcases List.mem_map.mp h1 with ⟨r, _, rfl⟩
        exact ⟨⟨t, countTag t seen + 1⟩, r, rfl, by simp⟩
      · rcases ih (seen ++ [Node.element t a cc]) q h2 with ⟨s, r, rfl, hlt⟩
        refine ⟨s, r, rfl, ?_⟩
        rw [countTag_append, countTag_elem] at hlt
        by_cases ht : t = s.tag <;> simp [ht] at hlt <;> omega

theorem cons_step_injective (s : PathStep) :
    Function.Injective (fun q : ElementPath => s :: q) := by
  intro q1 q2 h
  simpa using h

/-- Element paths of sibling subtrees never collide: within one
child's subtree they are distinct by induction, and distinct children
contribute paths with distinct head steps. -/
theorem subChildren_nodup (cs : List Node) :
    (∀ c ∈ cs, (elemPaths (sub c)).Nodup) →
    ∀ (seen : List Node), (elemPaths (subChildren seen cs)).Nodup := by
  induction cs with
  | nil => intro _ seen; simp [subChildren_nil, elemPaths]
  | cons c rest ih =>
    intro hall seen
    have hrest : ∀ c2 ∈ rest, (elemPaths (sub c2)).Nodup :=
      fun c2 hc2 => hall c2 (List.mem_cons_of_mem _ hc2)
    cases c with
    | text v =>
      rw [subChildren_cons_text]
      exact ih hrest (seen ++ [Node.text v])
    | comment v =>
      rw [subChildren_cons_comment, elemPaths_cons]
      simp only [isElem, if_neg Bool.false_ne_true]
      exact ih hrest (seen ++ [Node.comment v])
    | element t a cc =>
      rw [subChildren_cons_elem, elemPaths_append, elemPaths_map_cons]
      refine List.Nodup.append ?_ (ih hrest (seen ++ [Node.element t a cc])) ?_
      · exact (hall _ (List.mem_cons_self _ _)).map (cons_step_injective _)
      · intro q hq1 hq2
        rcases List.mem_map.mp hq1 with ⟨r, _, rfl⟩
        rcases subChildren_elem_head rest (seen ++ [Node.element t a cc]) _ hq2
          with ⟨s, r2, heq, hlt⟩
        have hs : s = ⟨t, countTag t seen + 1⟩ := by
          injection heq with h1 h2
          exact h1.symm
        rw [hs] at hlt
        simp [countTag_append, countTag_elem] at hlt

/-- Element paths within one subtree's relative traversal are
pairwise distinct. -/
theorem sub_nodup : ∀ (n : Node), (elemPaths (sub n)).Nodup := by
  refine node_ind _ ?_ ?_ ?_
  · intro v; simp [sub_text, elemPaths]
  · intro v; simp [sub_comment, elemPaths, isElem]
  · intro t a cs ih
    rw [sub_elem, elemPaths_cons]
    simp only [isElem, if_pos rfl]
    refine List.Nodup.cons ?_ (subChildren_nodup cs ih [])
    intro hmem
    rcases subChildren_elem_head cs [] [] hmem with ⟨s, r, heq, _⟩
    exact List.noConfusion heq

/-- Membership in the absolute traversal, in terms of the relative
traversal of the root. -/
theorem mem_traverseDom (t : String) (a : List (String × String)) (cs : List Node)
    (m : Node) (p : ElementPath) :
    (m, p) ∈ traverseDom (Node.element t a cs) ↔
      ∃ q, p = (⟨t, 1⟩ : PathStep) :: q ∧ (m, q) ∈ sub (Node.element t a cs) := by
  simp only [traverseDom, List.mem_map]
  constructor
  · rintro ⟨⟨d, q⟩, hmem, heq⟩
    simp only [Prod.mk.injEq] at heq
    exact ⟨q, heq.2.symm, heq.1 ▸ hmem⟩
  · rintro ⟨q, rfl, hmem⟩
    exact ⟨(m, q), hmem, rfl⟩

/-- The root is the first yield of the traversal, with the single-step
path `[⟨root.tag, 1⟩]`. -/
theorem traverseDom_head (t : String) (a : List (String × String)) (cs : List Node) :
    traverseDom (Node.element t a cs) =
      (Node.element t a cs, [(⟨t, 1⟩ : PathStep)]) ::
        (subChildren [] cs).map (fun dq => (dq.1, (⟨t, 1⟩ : PathStep) :: dq.2)) := by
  rw [traverseDom, sub_elem]
  rfl

theorem elemPaths_eq_filter_map (l : List (Node × ElementPath)) :
    elemPaths l = (l.filter (fun dq => isElem dq.1)).map Prod.snd := by
  induction l with
  | nil => rfl
  | cons x rest ih =>
    cases hx : isElem x.1 <;> simp [elemPaths_cons, List.filter_cons, hx, ih]

/-- `main.py`'s element loop, characterized: the records are exactly
the kept yields, mapped through the record constructor, in traversal
order. -/
theorem extract_eq (root : Node) :
    extract_element_data root =
      ((traverseDom root).filter (fun dq => keepNode dq.1)).map elementDict := by
  rw [extract_element_data]
  have key : ∀ (l : List (Node × ElementPath)) (acc : List ElementRecord),
      l.foldl (fun elements_data dq =>
        if keepNode dq.1 then elements_data ++ [elementDict dq] else elements_data) acc =
      acc ++ (l.filter (fun dq => keepNode dq.1)).map elementDict := by
    intro l
    induction l with
    | nil => intro acc; simp
    | cons x rest ih =>
      intro acc
      cases hx : keepNode x.1 <;> simp [List.foldl_cons, List.filter_cons, hx, ih]
  simpa using key (traverseDom root) []

/-- `element.get(key)` returns `None` exactly when the key is absent. -/
theorem lookup_eq_none (k : String) (l : List (String × String)) :
    List.lookup k l = none ↔ ∀ v, (k, v) ∉ l := by
  induction l with
  | nil => simp [List.lookup]
  | cons kv rest ih =>
    rcases kv with ⟨k2, v2⟩
    by_cases hk : k = k2
    · subst hk
      have hlk : List.lookup k ((k, v2) :: rest) = some v2 := by simp [List.lookup]
      rw [hlk]
      constructor
      · intro h; exact absurd h (by simp)
      · intro h; exact absurd (List.mem_cons_self (k, v2) rest) (h v2)
    · have hbeq : (k == k2) = false := by simpa using hk
      simp only [List.lookup, hbeq, List.mem_cons]
      rw [ih]
      constructor
      · intro h v
        rintro (heq | hmem)
        · exact hk (by simpa using congrArg Prod.fst heq)
        · exact h v hmem
      · intro h v hmem
        exact h v (Or.inr hmem)

theorem length_string_mk (l : List Char) : (String.mk l).length = l.length := rfl

/-- Truncation behavior of `trim_text` on long input. -/
theorem trim_text_long (s : String) (h : 100 < s.length) :
    trim_text s = String.mk (s.data.take 100) ++ "..." ∧ (trim_text s).length = 103 := by
  have hcond : s.length > 100 := h
  constructor
  · rw [trim_text, if_pos hcond]
  · rw [trim_text, if_pos hcond, String.length_append, length_string_mk, List.length_take]
    have hdata : s.data.length = s.length := rfl
    have hdots : ("..." : String).length = 3 := rfl
    rw [hdata, hdots]
    omega

/-- `trim_text` is the identity on short input. -/
theorem trim_text_short (s : String) (h : s.length ≤ 100) : trim_text s = s := by
  rw [trim_text, if_neg (by omega)]

/-- Every element yield's path ends in a step carrying that element's
own tag. -/
theorem traverseDom_last_tag (t : String) (a : List (String × String)) (cs : List Node)
    (m : Node) (q : ElementPath) :
    (m, q) ∈ traverseDom (Node.element t a cs) → isElem m = true →
    ∃ s : PathStep, q.getLast? = some s ∧ s.tag = tagOf m := by
  intro hmem helem
  rcases (mem_traverseDom t a cs m q).mp hmem with ⟨q2, rfl, hsub⟩
  rcases sub_parent_split _ m q2 hsub helem with ⟨rfl, rfl⟩ | ⟨pt, pa, pcs, pp, _, i, hi, _, rfl⟩
  · exact ⟨⟨t, 1⟩, rfl, rfl⟩
  · refine ⟨⟨tagOf m, countTag (tagOf m) (pcs.take i) + 1⟩, ?_, rfl⟩
    rw [show (⟨t, 1⟩ : PathStep) :: (pp ++ [(⟨tagOf m, countTag (tagOf m) (pcs.take i) + 1⟩ : PathStep)]) =
      ((⟨t, 1⟩ : PathStep) :: pp) ++ [(⟨tagOf m, countTag (tagOf m) (pcs.take i) + 1⟩ : PathStep)] from rfl]
    exact List.getLast?_concat _

/-- Whatever the filename loop returns was not an existing path, and
has the renumbered `{base}_{counter}.{extension}` shape. -/
theorem genLoop_fresh (fs : List String) (base ext : String) :
    ∀ (fuel counter : Nat) (r : String), genLoop fs base ext fuel counter = some r →
      fs.contains r = false ∧
        ∃ c, counter ≤ c ∧ r = base ++ "_" ++ toString c ++ "." ++ ext := by
  intro fuel
  induction fuel with
  | zero => intro counter r h; exact absurd h (by simp [genLoop])
  | succ fuel ih =>
    intro counter r h
    rw [genLoop] at h
    by_cases hc : fs.contains (base ++ "_" ++ toString counter ++ "." ++ ext) = true
    · rw [if_pos hc] at h
      rcases ih (counter + 1) r h with ⟨hfree, c, hle, hshape⟩
      exact ⟨hfree, c, by omega, hshape⟩
    · rw [if_neg hc] at h
      cases h
      exact ⟨Bool.of_not_eq_true hc, counter, le_rfl, rfl⟩

/-- The parser is total and always returns an element root. -/
theorem parse_dom_isElem (s : String) : isElem (parse_dom s) = true := by
  rw [parse_dom]
  split <;> rfl

/-! ### Claim theorems -/

/-- C2: for every tree (in particular every tree built by the parser),
every element appears at most once in the traversal — the element
yields are pairwise distinct — and any two distinct element yields of
the same tree carry unequal ElementPaths: the list of element paths
has no duplicates, including nested same-tag siblings at different
depths. -/
theorem c2_path_uniqueness :
    ∀ (t : String) (a : List (String × String)) (cs : List Node),
      (elemPaths (traverseDom (Node.element t a cs))).Nodup ∧
      ((traverseDom (Node.element t a cs)).filter (fun dq => isElem dq.1)).Nodup := by
  intro t a cs
  have hpaths : (elemPaths (traverseDom (Node.element t a cs))).Nodup := by
    rw [traverseDom, elemPaths_map_cons]
    exact (sub_nodup _).map (cons_step_injective _)
  refine ⟨hpaths, ?_⟩
  rw [elemPaths_eq_filter_map] at hpaths
  exact hpaths.of_map _

/-- C7: the spec-modelled tolerant parser never fails: it is a total
function returning an element root on every input, and the unclosed
`<p>Text` document recovers to a single paragraph element whose text
content is "Text" (the full parse-traverse-project pipeline completes
and yields its record). -/
theorem c7_parser_total :
    (∀ s : String, isElem (parse_dom s) = true) ∧
    parse_dom "<p>Text" = Node.element "p" [] [Node.text "Text"] ∧
    extract_element_data (parse_dom "<p>Text") =
      [⟨"Text", none, none, [], [⟨"p", 1⟩]⟩] := by
  refine ⟨parse_dom_isElem, rfl, ?_⟩
  have h : parse_dom "<p>Text" = Node.element "p" [] [Node.text "Text"] := rfl
  rw [h]
  simp only [extract_element_data, traverseDom, sub_elem, sub_text, sub_comment, subChildren,
    childSteps, stepFor, countTag, countComments, consSteps, List.map_cons, List.map_nil,
    List.flatten, List.foldl, keepNode, elementDict, strippedText, itertext_elem, itertext_text,
    itertext_comment, List.append_nil, List.nil_append, List.flatten_cons, List.flatten_nil]
  rfl

/-- C8: traversal and projection are deterministic — two runs over the
same constructed tree produce identical yield sequences and identical
record sequences. -/
theorem c8_determinism :
    ∀ (t1 t2 : Node), t1 = t2 →
      traverseDom t1 = traverseDom t2 ∧
        extract_element_data t1 = extract_element_data t2 := by
  rintro t1 t2 rfl
  exact ⟨rfl, rfl⟩

/-- C8 witness: determinism instantiated on a concrete tree. -/
theorem c8_determinism_witness :
    Node.element "p" [] [Node.text "x"] = Node.element "p" [] [Node.text "x"] ∧
    traverseDom (Node.element "p" [] [Node.text "x"]) =
      traverseDom (Node.element "p" [] [Node.text "x"]) ∧
    extract_element_data (Node.element "p" [] [Node.text "x"]) =
      extract_element_data (Node.element "p" [] [Node.text "x"]) :=
  ⟨rfl, c8_determinism (Node.element "p" [] [Node.text "x"])
    (Node.element "p" [] [Node.text "x"]) rfl⟩

/-- C9: the output-filename chooser never overwrites: every path it
returns is absent from the filesystem (modelled as the finite list of
existing paths) at the time it is returned, and has the renumbered
`{base}_{counter}.{extension}` shape with counter at least 1. -/
theorem c9_no_overwrite :
    ∀ (fs : List String) (file_path extension r : String),
      generate_unique_filename fs file_path extension = some r →
      fs.contains r = false ∧
        ∃ c, 1 ≤ c ∧
          r = String.mk (splitextBase file_path.data) ++ "_" ++ toString c ++ "." ++ extension := by
  intro fs fp ext r h
  exact genLoop_fresh fs _ ext _ 1 r h

/-- C9 witness: with `dom1_1.json` and `dom1_2.json` already existing,
the chooser returns `dom1_3.json`, which does not exist. -/
theorem c9_no_overwrite_witness :
    generate_unique_filename ["dom1_1.json", "dom1_2.json"] "dom1.txt" "json" =
      some "dom1_3.json" ∧
    ["dom1_1.json", "dom1_2.json"].contains "dom1_3.json" = false :=
  ⟨by decide, (c9_no_overwrite ["dom1_1.json", "dom1_2.json"] "dom1.txt" "json"
    "dom1_3.json" (by decide)).1⟩

/-- C10: filtering is per-node, not per-subtree — every yielded node
that passes the keep test produces its record, regardless of whether
any ancestor was dropped; and for an allow-listed `div` inside a
dropped `table` wrapper, the record is still produced and its content
still includes the text of its own non-allow-listed `b` descendant. -/
theorem c10_per_node_filter :
    (∀ (root : Node) (dq : Node × ElementPath), dq ∈ traverseDom root →
      keepNode dq.1 = true → elementDict dq ∈ extract_element_data root) ∧
    extract_element_data (parse_dom "<table><div>A<b>B</b></div></table>") =
      [⟨"AB", none, none, [], [⟨"table", 1⟩, ⟨"div", 1⟩]⟩] := by
  constructor
  · intro root dq hmem hkeep
    rw [extract_eq]
    exact List.mem_map_of_mem _ (List.mem_filter.mpr ⟨hmem, hkeep⟩)
  · have h : parse_dom "<table><div>A<b>B</b></div></table>" =
        Node.element "table" []
          [Node.element "div" [] [Node.text "A", Node.element "b" [] [Node.text "B"]]] := rfl
    rw [h]
    simp only [extract_element_data, traverseDom, sub_elem, sub_text, sub_comment, subChildren,
      childSteps, stepFor, countTag, countComments, consSteps, List.map_cons, List.map_nil,
      List.flatten, List.foldl, keepNode, elementDict, strippedText, itertext_elem, itertext_text,
      itertext_comment, List.append_nil, List.nil_append, List.flatten_cons, List.flatten_nil]
    rfl

/-- C10 witness: inside the dropped `table` wrapper, the `div` yield
passes the keep test and its record is in the output. -/
theorem c10_per_node_filter_witness :
    ((Node.element "div" [] [Node.text "A", Node.element "b" [] [Node.text "B"]],
        [(⟨"table", 1⟩ : PathStep), ⟨"div", 1⟩]) ∈
      traverseDom (Node.element "table" []
        [Node.element "div" [] [Node.text "A", Node.element "b" [] [Node.text "B"]]])) ∧
    keepNode (Node.element "div" [] [Node.text "A", Node.element "b" [] [Node.text "B"]]) = true ∧
    elementDict (Node.element "div" [] [Node.text "A", Node.element "b" [] [Node.text "B"]],
        [(⟨"table", 1⟩ : PathStep), ⟨"div", 1⟩]) ∈
      extract_element_data (Node.element "table" []
        [Node.element "div" [] [Node.text "A", Node.element "b" [] [Node.text "B"]]]) := by
  have htrav : traverseDom (Node.element "table" []
      [Node.element "div" [] [Node.text "A", Node.element "b" [] [Node.text "B"]]]) =
      [(Node.element "table" []
          [Node.element "div" [] [Node.text "A", Node.element "b" [] [Node.text "B"]]],
        [(⟨"table", 1⟩ : PathStep)]),
       (Node.element "div" [] [Node.text "A", Node.element "b" [] [Node.text "B"]],
        [(⟨"table", 1⟩ : PathStep), ⟨"div", 1⟩]),
       (Node.element "b" [] [Node.text "B"],
        [(⟨"table", 1⟩ : PathStep), ⟨"div", 1⟩, ⟨"b", 1⟩])] := by
    simp only [traverseDom, sub_elem, sub_text, subChildren, childSteps, stepFor, countTag,
      countComments, consSteps, List.map_cons, List.map_nil, List.append_nil, List.nil_append]
  have hmem : (Node.element "div" [] [Node.text "A", Node.element "b" [] [Node.text "B"]],
      [(⟨"table", 1⟩ : PathStep), ⟨"div", 1⟩]) ∈
      traverseDom (Node.element "table" []
        [Node.element "div" [] [Node.text "A", Node.element "b" [] [Node.text "B"]]]) := by
    rw [htrav]
    exact List.mem_cons_of_mem _ (List.mem_cons_self _ _)
  exact ⟨hmem, rfl, c10_per_node_filter.1 _ _ hmem rfl⟩

/-- Every record of the output originates from a yielded, allow-listed
element via the record constructor. -/
theorem mem_extract_split (root : Node) (r : ElementRecord)
    (h : r ∈ extract_element_data root) :
    ∃ (t : String) (a : List (String × String)) (cs : List Node) (q : ElementPath),
      (Node.element t a cs, q) ∈ traverseDom root ∧ is_relevant_element t = true ∧
      r = elementDict (Node.element t a cs, q) := by
  rw [extract_eq] at h
  rcases List.mem_map.mp h with ⟨dq, hdq, rfl⟩
  rcases List.mem_filter.mp hdq with ⟨hmem, hkeep⟩
  rcases dq with ⟨n, q⟩
  cases n with
  | element t a cs => exact ⟨t, a, cs, q, hmem, by simpa [keepNode] using hkeep, rfl⟩
  | text v => simp [keepNode] at hkeep
  | comment v => simp [keepNode] at hkeep

theorem elementDict_elem (t : String) (a : List (String × String)) (cs : List Node)
    (q : ElementPath) :
    elementDict (Node.element t a cs, q) =
      { content := trim_text (strippedText (Node.element t a cs)),
        id := List.lookup "id" a,
        classAttr := List.lookup "class" a,
        attributes := a.filter (fun kv => attr_allowlist.contains kv.1),
        xpath := q } := rfl

/-- C6: the projection keeps exactly the element yields whose tag is
in the allow-list — the keep test is elementhood plus tag relevance,
the output is the filter of the traversal mapped through the record
constructor (so nothing is computed for skipped nodes), and every
output record's path ends in an allow-listed tag. -/
theorem c6_allowlist_projection :
    (∀ n : Node, keepNode n = (isElem n && is_relevant_element (tagOf n))) ∧
    (∀ root : Node, extract_element_data root =
      ((traverseDom root).filter (fun dq => keepNode dq.1)).map elementDict) ∧
    (∀ (t : String) (a : List (String × String)) (cs : List Node) (r : ElementRecord),
      r ∈ extract_element_data (Node.element t a cs) →
      ∃ s : PathStep, r.xpath.getLast? = some s ∧ is_relevant_element s.tag = true) := by
  refine ⟨fun n => by cases n <;> rfl, extract_eq, ?_⟩
  intro t a cs r hr
  rcases mem_extract_split _ r hr with ⟨t3, a3, cs3, q, hmem, hrel, rfl⟩
  rcases traverseDom_last_tag t a cs _ q hmem rfl with ⟨s, hlast, htag⟩
  refine ⟨s, ?_, ?_⟩
  · rw [elementDict_elem]
    exact hlast
  · rw [htag]
    exact hrel

/-- C6 witness: in `<div><span>Hi</span></div>` both records' paths
end in allow-listed tags. -/
theorem c6_allowlist_projection_witness :
    (elementDict (Node.element "span" [] [Node.text "Hi"],
        [(⟨"div", 1⟩ : PathStep), ⟨"span", 1⟩]) ∈
      extract_element_data
        (Node.element "div" [] [Node.element "span" [] [Node.text "Hi"]])) ∧
    ∃ s : PathStep,
      (elementDict (Node.element "span" [] [Node.text "Hi"],
        [(⟨"div", 1⟩ : PathStep), ⟨"span", 1⟩])).xpath.getLast? = some s ∧
      is_relevant_element s.tag = true := by
  have htrav : traverseDom (Node.element "div" [] [Node.element "span" [] [Node.text "Hi"]]) =
      [(Node.element "div" [] [Node.element "span" [] [Node.text "Hi"]],
          [(⟨"div", 1⟩ : PathStep)]),
       (Node.element "span" [] [Node.text "Hi"],
          [(⟨"div", 1⟩ : PathStep), ⟨"span", 1⟩])] := by
    simp only [traverseDom, sub_elem, sub_text, subChildren, childSteps, stepFor, countTag,
      countComments, consSteps, List.map_cons, List.map_nil, List.append_nil, List.nil_append]
  have hmem : elementDict (Node.element "span" [] [Node.text "Hi"],
      [(⟨"div", 1⟩ : PathStep), ⟨"span", 1⟩]) ∈
      extract_element_data (Node.element "div" [] [Node.element "span" [] [Node.text "Hi"]]) := by
    rw [extract_eq, htrav]
    refine List.mem_map_of_mem _ ?_
    refine List.mem_filter.mpr ⟨List.mem_cons_of_mem _ (List.mem_cons_self _ _), rfl⟩
  exact ⟨hmem, c6_allowlist_projection.2.2 "div" [] [Node.element "span" [] [Node.text "Hi"]]
    _ hmem⟩

/-- C4: every produced record's attributes mapping is exactly the
element's attribute list filtered to the allow-listed keys: only
allow-listed keys actually present on the element, with values
verbatim, and in the element's attribute order (a sublist of the
element's attribute list). -/
theorem c4_attrs_verbatim :
    ∀ (root : Node) (r : ElementRecord), r ∈ extract_element_data root →
      ∃ (t : String) (a : List (String × String)) (cs : List Node) (q : ElementPath),
        (Node.element t a cs, q) ∈ traverseDom root ∧
        r = elementDict (Node.element t a cs, q) ∧
        r.attributes = a.filter (fun kv => attr_allowlist.contains kv.1) ∧
        List.Sublist r.attributes a ∧
        ∀ kv ∈ r.attributes, attr_allowlist.contains kv.1 = true ∧ kv ∈ a := by
  intro root r hr
  rcases mem_extract_split root r hr with ⟨t, a, cs, q, hmem, _, rfl⟩
  refine ⟨t, a, cs, q, hmem, rfl, rfl, ?_, ?_⟩
  · rw [elementDict_elem]
    exact List.filter_sublist a
  · intro kv hkv
    rw [elementDict_elem] at hkv
    have h2 := List.mem_filter.mp hkv
    exact ⟨h2.2, h2.1⟩

/-- C4 witness: instantiated on `<a href=" X " id="i" rel="next">`,
whose record keeps `href` (value verbatim, untrimmed) and `id` in
order and drops `rel`. -/
theorem c4_attrs_verbatim_witness :
    (elementDict (Node.element "a" [("href", " X "), ("id", "i"), ("rel", "next")] [],
        [(⟨"a", 1⟩ : PathStep)]) ∈
      extract_element_data
        (Node.element "a" [("href", " X "), ("id", "i"), ("rel", "next")] [])) ∧
    (elementDict (Node.element "a" [("href", " X "), ("id", "i"), ("rel", "next")] [],
        [(⟨"a", 1⟩ : PathStep)])).attributes = [("href", " X "), ("id", "i")] ∧
    (∃ (t : String) (a : List (String × String)) (cs : List Node) (q : ElementPath),
      (Node.element t a cs, q) ∈
        traverseDom (Node.element "a" [("href", " X "), ("id", "i"), ("rel", "next")] []) ∧
      elementDict (Node.element "a" [("href", " X "), ("id", "i"), ("rel", "next")] [],
          [(⟨"a", 1⟩ : PathStep)]) = elementDict (Node.element t a cs, q) ∧
      (elementDict (Node.element "a" [("href", " X "), ("id", "i"), ("rel", "next")] [],
          [(⟨"a", 1⟩ : PathStep)])).attributes =
        a.filter (fun kv => attr_allowlist.contains kv.1) ∧
      List.Sublist (elementDict (Node.element "a" [("href", " X "), ("id", "i"), ("rel", "next")] [],
          [(⟨"a", 1⟩ : PathStep)])).attributes a ∧
      ∀ kv ∈ (elementDict (Node.element "a" [("href", " X "), ("id", "i"), ("rel", "next")] [],
          [(⟨"a", 1⟩ : PathStep)])).attributes,
        attr_allowlist.contains kv.1 = true ∧ kv ∈ a) := by
  have hmem : elementDict (Node.element "a" [("href", " X "), ("id", "i"), ("rel", "next")] [],
      [(⟨"a", 1⟩ : PathStep)]) ∈
      extract_element_data
        (Node.element "a" [("href", " X "), ("id", "i"), ("rel", "next")] []) := by
    rw [extract_eq, traverseDom_head]
    refine List.mem_map_of_mem _ ?_
    exact List.mem_filter.mpr ⟨List.mem_cons_self _ _, rfl⟩
  exact ⟨hmem, rfl, c4_attrs_verbatim _ _ hmem⟩

/-- C5: a missing `id` (resp. `class`) attribute yields an explicitly
absent field (`none`), never the empty string; an element with none of
the allow-listed attributes yields an empty attributes mapping with
both fields absent. -/
theorem c5_absent_attributes :
    ∀ (root : Node) (r : ElementRecord), r ∈ extract_element_data root →
      ∃ (t : String) (a : List (String × String)) (cs : List Node) (q : ElementPath),
        (Node.element t a cs, q) ∈ traverseDom root ∧
        r = elementDict (Node.element t a cs, q) ∧
        ((∀ v, ("id", v) ∉ a) → r.id = none) ∧
        ((∀ v, ("class", v) ∉ a) → r.classAttr = none) ∧
        ((∀ kv ∈ a, attr_allowlist.contains kv.1 = false) →
          r.attributes = [] ∧ r.id = none ∧ r.classAttr = none) := by
  intro root r hr
  rcases mem_extract_split root r hr with ⟨t, a, cs, q, hmem, _, rfl⟩
  have hid : (∀ v, ("id", v) ∉ a) →
      (elementDict (Node.element t a cs, q)).id = none := by
    intro h
    rw [elementDict_elem]
    exact (lookup_eq_none "id" a).mpr h
  have hclass : (∀ v, ("class", v) ∉ a) →
      (elementDict (Node.element t a cs, q)).classAttr = none := by
    intro h
    rw [elementDict_elem]
    exact (lookup_eq_none "class" a).mpr h
  refine ⟨t, a, cs, q, hmem, rfl, hid, hclass, ?_⟩
  intro hnone
  refine ⟨?_, hid ?_, hclass ?_⟩
  · rw [elementDict_elem]
    exact List.filter_eq_nil_iff.mpr (fun kv hkv => by simpa using hnone kv hkv)
  · intro v hv
    have := hnone _ hv
    simp [attr_allowlist] at this
  · intro v hv
    have := hnone _ hv
    simp [attr_allowlist] at this

/-- C5 witness: instantiated on `<button>` with no attributes at all —
the record's `id` and `class` are `none` and its attributes mapping is
empty. -/
theorem c5_absent_attributes_witness :
    (elementDict (Node.element "button" [] [], [(⟨"button", 1⟩ : PathStep)]) ∈
      extract_element_data (Node.element "button" [] [])) ∧
    (elementDict (Node.element "button" [] [], [(⟨"button", 1⟩ : PathStep)])).id = none ∧
    (elementDict (Node.element "button" [] [], [(⟨"button", 1⟩ : PathStep)])).classAttr = none ∧
    (elementDict (Node.element "button" [] [], [(⟨"button", 1⟩ : PathStep)])).attributes = [] ∧
    (∃ (t : String) (a : List (String × String)) (cs : List Node) (q : ElementPath),
      (Node.element t a cs, q) ∈ traverseDom (Node.element "button" [] []) ∧
      elementDict (Node.element "button" [] [], [(⟨"button", 1⟩ : PathStep)]) =
        elementDict (Node.element t a cs, q) ∧
      ((∀ v, ("id", v) ∉ a) →
        (elementDict (Node.element "button" [] [], [(⟨"button", 1⟩ : PathStep)])).id = none) ∧
      ((∀ v, ("class", v) ∉ a) →
        (elementDict (Node.element "button" [] [], [(⟨"button", 1⟩ : PathStep)])).classAttr = none) ∧
      ((∀ kv ∈ a, attr_allowlist.contains kv.1 = false) →
        (elementDict (Node.element "button" [] [], [(⟨"button", 1⟩ : PathStep)])).attributes = [] ∧
        (elementDict (Node.element "button" [] [], [(⟨"button", 1⟩ : PathStep)])).id = none ∧
        (elementDict (Node.element "button" [] [], [(⟨"button", 1⟩ : PathStep)])).classAttr = none)) := by
  have hmem : elementDict (Node.element "button" [] [], [(⟨"button", 1⟩ : PathStep)]) ∈
      extract_element_data (Node.element "button" [] []) := by
    rw [extract_eq, traverseDom_head]
    refine List.mem_map_of_mem _ ?_
    exact List.mem_filter.mpr ⟨List.mem_cons_self _ _, rfl⟩
  exact ⟨hmem, rfl, rfl, rfl, c5_absent_attributes _ _ hmem⟩

/-- C3: for every kept element, when the trimmed concatenated
descendant text exceeds 100 characters the record's content is exactly
the first 100 characters followed by the 3-character marker `...` and
has length exactly 103; when the trimmed text is at most 100
characters (the empty string included) it is preserved exactly. -/
theorem c3_content_truncation :
    ∀ (root : Node) (t : String) (a : List (String × String)) (cs : List Node) (q : ElementPath),
      (Node.element t a cs, q) ∈ traverseDom root → is_relevant_element t = true →
      elementDict (Node.element t a cs, q) ∈ extract_element_data root ∧
      (100 < (strippedText (Node.element t a cs)).length →
        (elementDict (Node.element t a cs, q)).content =
          String.mk ((strippedText (Node.element t a cs)).data.take 100) ++ "..." ∧
        (elementDict (Node.element t a cs, q)).content.length = 103) ∧
      ((strippedText (Node.element t a cs)).length ≤ 100 →
        (elementDict (Node.element t a cs, q)).content = strippedText (Node.element t a cs)) := by
  intro root t a cs q hmem hrel
  have hcontent : (elementDict (Node.element t a cs, q)).content =
      trim_text (strippedText (Node.element t a cs)) := rfl
  refine ⟨?_, ?_, ?_⟩
  · rw [extract_eq]
    refine List.mem_map_of_mem _ (List.mem_filter.mpr ⟨hmem, ?_⟩)
    simpa [keepNode] using hrel
  · intro hlong
    rw [hcontent]
    exact ⟨(trim_text_long _ hlong).1, (trim_text_long _ hlong).2⟩
  · intro hshort
    rw [hcontent]
    exact trim_text_short _ hshort

/-- C3 witness: a paragraph holding 150 copies of `a` — its record is
produced and its content has length exactly 103. -/
theorem c3_content_truncation_witness :
    ((Node.element "p" [] [Node.text (String.mk (List.replicate 150 'a'))],
        [(⟨"p", 1⟩ : PathStep)]) ∈
      traverseDom (Node.element "p" [] [Node.text (String.mk (List.replicate 150 'a'))])) ∧
    is_relevant_element "p" = true ∧
    100 < (strippedText (Node.element "p" [] [Node.text (String.mk (List.replicate 150 'a'))])).length ∧
    (elementDict (Node.element "p" [] [Node.text (String.mk (List.replicate 150 'a'))],
        [(⟨"p", 1⟩ : PathStep)])).content.length = 103 := by
  have hmem : (Node.element "p" [] [Node.text (String.mk (List.replicate 150 'a'))],
      [(⟨"p", 1⟩ : PathStep)]) ∈
      traverseDom (Node.element "p" [] [Node.text (String.mk (List.replicate 150 'a'))]) := by
    rw [traverseDom_head]
    exact List.mem_cons_self _ _
  have hst : strippedText (Node.element "p" [] [Node.text (String.mk (List.replicate 150 'a'))]) =
      String.mk (List.replicate 150 'a') := by
    simp only [strippedText, itertext_elem, itertext_text, List.map_cons, List.map_nil,
      List.flatten_cons, List.flatten_nil, List.append_nil]
    rfl
  have hlong : 100 < (strippedText
      (Node.element "p" [] [Node.text (String.mk (List.replicate 150 'a'))])).length := by
    rw [hst, length_string_mk, List.length_replicate]
    omega
  exact ⟨hmem, rfl, hlong,
    ((c3_content_truncation _ "p" [] [Node.text (String.mk (List.replicate 150 'a'))]
      [(⟨"p", 1⟩ : PathStep)] hmem rfl).2.1 hlong).2⟩

/-- C1: every element yield's path is its parent's path with exactly
one step appended, whose tag is the node's tag and whose index is the
1-based count of same-tag preceding siblings plus one — and conversely
every element child of a yielded element is yielded with exactly that
path; the root's path is `[⟨root.tag, 1⟩]`; on
`<div id="a"><span>Hi</span><span>Bye</span></div>` the two span
records carry paths `[div#1, span#1]` and `[div#1, span#2]` with
content "Hi"/"Bye". -/
theorem c1_positional_paths :
    (∀ (t : String) (a : List (String × String)) (cs : List Node) (m : Node) (q : ElementPath),
      (m, q) ∈ traverseDom (Node.element t a cs) → isElem m = true →
      (m = Node.element t a cs ∧ q = [⟨t, 1⟩]) ∨
      (∃ (pt : String) (pa : List (String × String)) (pcs : List Node) (pp : ElementPath),
        (Node.element pt pa pcs, pp) ∈ traverseDom (Node.element t a cs) ∧
        ∃ (i : Nat) (hi : i < pcs.length), pcs.get ⟨i, hi⟩ = m ∧
          q = pp ++ [⟨tagOf m, countTag (tagOf m) (pcs.take i) + 1⟩])) ∧
    (∀ (t : String) (a : List (String × String)) (cs : List Node)
        (pt : String) (pa : List (String × String)) (pcs : List Node) (pp : ElementPath)
        (i : Nat) (hi : i < pcs.length),
      (Node.element pt pa pcs, pp) ∈ traverseDom (Node.element t a cs) →
      isElem (pcs.get ⟨i, hi⟩) = true →
      (pcs.get ⟨i, hi⟩,
        pp ++ [⟨tagOf (pcs.get ⟨i, hi⟩), countTag (tagOf (pcs.get ⟨i, hi⟩)) (pcs.take i) + 1⟩]) ∈
        traverseDom (Node.element t a cs)) ∧
    extract_element_data (parse_dom "<div id=\"a\"><span>Hi</span><span>Bye</span></div>") =
      [⟨"HiBye", some "a", none, [("id", "a")], [⟨"div", 1⟩]⟩,
       ⟨"Hi", none, none, [], [⟨"div", 1⟩, ⟨"span", 1⟩]⟩,
       ⟨"Bye", none, none, [], [⟨"div", 1⟩, ⟨"span", 2⟩]⟩] := by
  refine ⟨?_, ?_, ?_⟩
  · intro t a cs m q hmem helem
    rcases (mem_traverseDom t a cs m q).mp hmem with ⟨q2, rfl, hsub⟩
    rcases sub_parent_split _ m q2 hsub helem with ⟨rfl, rfl⟩ |
      ⟨pt, pa, pcs, pp, hpar, i, hi, hch, rfl⟩
    · exact Or.inl ⟨rfl, rfl⟩
    · exact Or.inr ⟨pt, pa, pcs, ⟨t, 1⟩ :: pp,
        (mem_traverseDom t a cs _ _).mpr ⟨pp, rfl, hpar⟩, i, hi, hch, rfl⟩
  · intro t a cs pt pa pcs pp i hi hpar hchel
    rcases (mem_traverseDom t a cs _ pp).mp hpar with ⟨pp2, rfl, hsub⟩
    have hself : (pcs.get ⟨i, hi⟩, ([] : ElementPath)) ∈ sub (pcs.get ⟨i, hi⟩) := by
      cases hcase : pcs.get ⟨i, hi⟩ with
      | element t3 a3 c3 => rw [sub_elem]; exact List.mem_cons_self _ _
      | text v => rw [hcase] at hchel; simp [isElem] at hchel
      | comment v => rw [hcase] at hchel; simp [isElem] at hchel
    have hstep : stepFor ([] ++ pcs.take i) (pcs.get ⟨i, hi⟩) =
        some ⟨tagOf (pcs.get ⟨i, hi⟩), countTag (tagOf (pcs.get ⟨i, hi⟩)) (pcs.take i) + 1⟩ := by
      cases hcase : pcs.get ⟨i, hi⟩ with
      | element t3 a3 c3 => simp [stepFor, tagOf]
      | text v => rw [hcase] at hchel; simp [isElem] at hchel
      | comment v => rw [hcase] at hchel; simp [isElem] at hchel
    have hblock := subChildren_lift pcs [] i hi _ [] _ hself hstep
    have hinpar : (pcs.get ⟨i, hi⟩,
        [(⟨tagOf (pcs.get ⟨i, hi⟩), countTag (tagOf (pcs.get ⟨i, hi⟩)) (pcs.take i) + 1⟩ : PathStep)]) ∈
        sub (Node.element pt pa pcs) := by
      rw [sub_elem]
      exact List.mem_cons_of_mem _ hblock
    have htrans := sub_trans _ _ pp2 _ _ hsub hinpar
    refine (mem_traverseDom t a cs _ _).mpr
      ⟨pp2 ++ [⟨tagOf (pcs.get ⟨i, hi⟩), countTag (tagOf (pcs.get ⟨i, hi⟩)) (pcs.take i) + 1⟩],
        ?_, htrans⟩
    rfl
  · have h : parse_dom "<div id=\"a\"><span>Hi</span><span>Bye</span></div>" =
        Node.element "div" [("id", "a")]
          [Node.element "span" [] [Node.text "Hi"], Node.element "span" [] [Node.text "Bye"]] := by
      rfl
    rw [h]
    simp only [extract_element_data, traverseDom, sub_elem, sub_text, sub_comment, subChildren,
      childSteps, stepFor, countTag, countComments, consSteps, List.map_cons, List.map_nil,
      List.flatten, List.foldl, keepNode, elementDict, strippedText, itertext_elem, itertext_text,
      itertext_comment, List.append_nil, List.nil_append, List.flatten_cons, List.flatten_nil]
    rfl

/-- C1 witness: in the `<div><span/><span/></div>` tree, the second
span (one same-tag preceding sibling) is yielded with the parent div's
path extended by the step `span#2`. -/
theorem c1_positional_paths_witness :
    ((Node.element "div" [("id", "a")]
        [Node.element "span" [] [Node.text "Hi"], Node.element "span" [] [Node.text "Bye"]],
      [(⟨"div", 1⟩ : PathStep)]) ∈
      traverseDom (Node.element "div" [("id", "a")]
        [Node.element "span" [] [Node.text "Hi"], Node.element "span" [] [Node.text "Bye"]])) ∧
    isElem ([Node.element "span" [] [Node.text "Hi"],
        Node.element "span" [] [Node.text "Bye"]].get ⟨1, by decide⟩) = true ∧
    (([Node.element "span" [] [Node.text "Hi"],
        Node.element "span" [] [Node.text "Bye"]].get ⟨1, by decide⟩,
      [(⟨"div", 1⟩ : PathStep)] ++
        [⟨tagOf ([Node.element "span" [] [Node.text "Hi"],
            Node.element "span" [] [Node.text "Bye"]].get ⟨1, by decide⟩),
          countTag (tagOf ([Node.element "span" [] [Node.text "Hi"],
            Node.element "span" [] [Node.text "Bye"]].get ⟨1, by decide⟩))
            ([Node.element "span" [] [Node.text "Hi"],
              Node.element "span" [] [Node.text "Bye"]].take 1) + 1⟩]) ∈
      traverseDom (Node.element "div" [("id", "a")]
        [Node.element "span" [] [Node.text "Hi"], Node.element "span" [] [Node.text "Bye"]])) := by
  have hroot : (Node.element "div" [("id", "a")]
      [Node.element "span" [] [Node.text "Hi"], Node.element "span" [] [Node.text "Bye"]],
      [(⟨"div", 1⟩ : PathStep)]) ∈
      traverseDom (Node.element "div" [("id", "a")]
        [Node.element "span" [] [Node.text "Hi"], Node.element "span" [] [Node.text "Bye"]]) := by
    rw [traverseDom_head]
    exact List.mem_cons_self _ _
  exact ⟨hroot, rfl, c1_positional_paths.2.1 "div" [("id", "a")]
    [Node.element "span" [] [Node.text "Hi"], Node.element "span" [] [Node.text "Bye"]]
    "div" [("id", "a")]
    [Node.element "span" [] [Node.text "Hi"], Node.element "span" [] [Node.text "Bye"]]
    [(⟨"div", 1⟩ : PathStep)] 1 (by decide) hroot rfl⟩
